import Mathlib

/-!
Shallow embedding of the Home-Todo-Planner task scheduling core.

The embedded code lives in:
* src/unnamed/part_001 (server/utils/date.ts): normalizeToDay, addDays;
* the task service (bundled in src/server/__tests__/utils/date.test.ts):
  calculateTaskStatus, validateTaskData, getTasksForUser, completeTask;
* src/unnamed/part_007 (server/services/history.service.ts):
  getHistoryForUser, deleteHistoryEntry, clearHistoryForUser.

JavaScript Dates are modelled as a calendar day number (Int) together with a
millisecond offset within that day (Nat).  The local-time calendar is modelled
as uniform (no DST), so Date comparison by epoch milliseconds is
`day * 86400000 + ms`, `new Date(getFullYear(), getMonth(), getDate())`
(normalizeToDay) is `⟨day, 0⟩`, and `setDate(getDate() + k)` (calendar-day
arithmetic, as in addDays and in the recurring branch of calculateTaskStatus)
is `⟨day + k, ms⟩`.  Nullable fields are `Option`; JS truthiness tests on them
are modelled where they occur.
-/

namespace HomeTodo

/-- Milliseconds per calendar day (86,400,000). -/
def msPerDay : Int := 86400000

/-- A point in time: calendar day number plus millisecond offset within the day.
Well-formed timestamps (every value the program builds from an ISO string or
from normalizeToDay / addDays) have `ms < msPerDay`. -/
structure Timestamp where
  day : Int
  ms : Int
  deriving DecidableEq, Repr

/-- Date.prototype.getTime: epoch milliseconds, the value JS relational
operators on Dates compare. -/
def Timestamp.epoch (t : Timestamp) : Int := t.day * msPerDay + t.ms

/-- normalizeToDay (date.ts): `new Date(date.getFullYear(), date.getMonth(),
date.getDate())` — midnight of the same calendar day. -/
def normalizeToDay (t : Timestamp) : Timestamp := ⟨t.day, 0⟩

/-- addDays (date.ts): copy the date, then `result.setDate(result.getDate() + days)`
— calendar-day arithmetic, time of day preserved. -/
def addDays (t : Timestamp) (days : Int) : Timestamp := ⟨t.day + days, t.ms⟩

/-- TaskStatus (server/types.ts): the derived lifecycle state. -/
inductive TaskStatus where
  | done
  | pending
  | overdue
  deriving DecidableEq, Repr

/-- TaskStatusInput (task.service.ts): the fields calculateTaskStatus reads.
`is_recurring` is a SQLite integer (0 or 1 in stored rows); the code branches
on the JS truthiness test `!task.is_recurring`, i.e. on whether it is 0. -/
structure TaskStatusInput where
  is_recurring : Int
  last_completed_at : Option Timestamp
  interval_days : Option Int
  due_date : Option Timestamp
  deriving DecidableEq, Repr

/-- TaskStatusResult (task.service.ts). -/
structure TaskStatusResult where
  status : TaskStatus
  nextDue : Timestamp
  deriving DecidableEq, Repr

/-- calculateTaskStatus (task.service.ts), the pure status engine.
Non-recurring branch: no due date gives pending/today; otherwise the due date
is normalized and compared with `dueDateDay >= today` (epoch comparison).
Recurring branch: no completion gives overdue/today; otherwise
`nextDue = lastCompleted` shifted by `interval_days ?? 0` calendar days via
setDate, and the normalized nextDue is three-way compared against today
(`>` then `getTime() ===`).  The returned nextDue in that branch is the
unnormalized shifted instant. -/
def calculateTaskStatus (task : TaskStatusInput) (today : Timestamp) :
    TaskStatusResult :=
  if task.is_recurring = 0 then
    match task.due_date with
    | none => ⟨.pending, today⟩
    | some dd =>
      let dueDateDay := normalizeToDay dd
      if today.epoch ≤ dueDateDay.epoch then ⟨.pending, dueDateDay⟩
      else ⟨.overdue, dueDateDay⟩
  else
    match task.last_completed_at with
    | none => ⟨.overdue, today⟩
    | some lastCompleted =>
      let nextDue := addDays lastCompleted (task.interval_days.getD 0)
      let nextDueDay := normalizeToDay nextDue
      if today.epoch < nextDueDay.epoch then ⟨.done, nextDue⟩
      else if nextDueDay.epoch = today.epoch then ⟨.pending, nextDue⟩
      else ⟨.overdue, nextDue⟩

/-- The argument record of validateTaskData: all three fields optional, as in
the TS parameter type. -/
structure TaskFormData where
  name : Option String
  is_recurring : Option Bool
  interval_days : Option Int
  deriving DecidableEq, Repr

/-- TaskValidation (task.service.ts). -/
structure TaskValidation where
  valid : Bool
  error : Option String
  deriving DecidableEq, Repr

/-- JS truthiness of `data.name` (string | undefined): false for undefined and
for the empty string. -/
def nameTruthy : Option String → Bool
  | none => false
  | some s => !s.isEmpty

/-- JS truthiness of `data.is_recurring` (boolean | undefined). -/
def recurringTruthy : Option Bool → Bool
  | none => false
  | some b => b

/-- JS truthiness of `data.interval_days` (number | undefined): false for
undefined and for 0 — every nonzero number, negative ones included, is truthy. -/
def intervalTruthy : Option Int → Bool
  | none => false
  | some k => k != 0

/-- validateTaskData (task.service.ts): reject a falsy name, then reject a
truthy is_recurring with a falsy interval_days, else accept. -/
def validateTaskData (data : TaskFormData) : TaskValidation :=
  if !nameTruthy data.name then ⟨false, some "Name is required"⟩
  else if recurringTruthy data.is_recurring && !intervalTruthy data.interval_days then
    ⟨false, some "Interval is required for recurring tasks"⟩
  else ⟨true, none⟩

/-- A stored row of the tasks table (the columns the embedded operations
touch; presentation-only columns such as notes or category joins are
omitted).  Ids and owner ids are Nat (SQLite rowids). -/
structure TaskRow where
  id : Nat
  user_id : Nat
  name : String
  is_recurring : Int
  interval_days : Option Int
  due_date : Option Timestamp
  last_completed_at : Option Timestamp
  deriving DecidableEq, Repr

/-- A stored row of the task_completions table (columns the embedded
operations touch). -/
structure CompletionRow where
  id : Nat
  task_id : Nat
  completed_at : Timestamp
  deriving DecidableEq, Repr

/-- The SQLite database state seen by the task and history services. -/
structure Db where
  tasks : List TaskRow
  completions : List CompletionRow
  deriving DecidableEq, Repr

/-- `UPDATE tasks SET last_completed_at = ? WHERE id = ?`. -/
def setLastCompleted (taskId : Nat) (v : Option Timestamp)
    (tasks : List TaskRow) : List TaskRow :=
  tasks.map fun t => if t.id = taskId then { t with last_completed_at := v } else t

/-- completeTask (task.service.ts): the completion date is the caller's
`completed_at` when that field is truthy, else the current instant `now`
(`new Date().toISOString()`); one completions row is inserted (with the fresh
rowid `newId`) and the task's cache is set to the same value. -/
def completeTask (taskId : Nat) (completed_at : Option Timestamp)
    (now : Timestamp) (newId : Nat) (db : Db) : Db :=
  let completionDate := completed_at.getD now
  { tasks := setLastCompleted taskId (some completionDate) db.tasks
    completions := db.completions ++ [⟨newId, taskId, completionDate⟩] }

/-- The query `SELECT completed_at FROM task_completions WHERE task_id = ?
ORDER BY completed_at DESC LIMIT 1` (history.service.ts): the greatest
surviving completed_at for the task, or none.  ISO strings of equal length
order lexicographically as their instants, modelled by epoch order.  The max
is computed by folding maxOptTs over the task's completions. -/
def maxOptTs (acc : Option Timestamp) (c : CompletionRow) : Option Timestamp :=
  match acc with
  | none => some c.completed_at
  | some m => if m.epoch < c.completed_at.epoch then some c.completed_at else some m

/-- The value of the ORDER BY completed_at DESC LIMIT 1 query for a task. -/
def latestCompletion (taskId : Nat) (comps : List CompletionRow) :
    Option Timestamp :=
  (comps.filter fun c => c.task_id = taskId).foldl maxOptTs none

/-- deleteHistoryEntry (history.service.ts): delete the completions row with
the given id, then recompute the task's cached last_completed_at from the
surviving completions of `taskId` (the route passes the deleted entry's
task_id). -/
def deleteHistoryEntry (entryId taskId : Nat) (db : Db) : Db :=
  let comps := db.completions.filter fun c => c.id ≠ entryId
  { completions := comps
    tasks := setLastCompleted taskId (latestCompletion taskId comps) db.tasks }

/-- The subquery `task_id IN (SELECT id FROM tasks WHERE user_id = ?)`:
whether some task row with this id belongs to the user. -/
def taskOwnedBy (userId : Nat) (tasks : List TaskRow) (taskId : Nat) : Bool :=
  tasks.any fun t => t.id = taskId && t.user_id = userId

/-- clearHistoryForUser (history.service.ts): delete every completion of a
task owned by the user, and null the cache of every task owned by the user. -/
def clearHistoryForUser (userId : Nat) (db : Db) : Db :=
  { completions := db.completions.filter fun c => !taskOwnedBy userId db.tasks c.task_id
    tasks := db.tasks.map fun t =>
      if t.user_id = userId then { t with last_completed_at := none } else t }

/-- The projection of a stored task row to the fields calculateTaskStatus
reads. -/
def taskStatusInputOf (t : TaskRow) : TaskStatusInput :=
  ⟨t.is_recurring, t.last_completed_at, t.interval_days, t.due_date⟩

/-- TaskWithStatus (server/types.ts): a task row with the derived status and
next_due attached. -/
structure TaskWithStatus where
  row : TaskRow
  status : TaskStatus
  next_due : Timestamp
  deriving DecidableEq, Repr

/-- getTasksForUser (task.service.ts): rows with
`user_id = ? AND (is_recurring = 1 OR last_completed_at IS NULL)`, each mapped
through calculateTaskStatus with today = the current date normalized (threaded
here as a parameter).  The SQL ORDER BY name only permutes the selected rows
and is not modelled. -/
def getTasksForUser (userId : Nat) (today : Timestamp) (db : Db) :
    List TaskWithStatus :=
  (db.tasks.filter fun t =>
      t.user_id = userId && (t.is_recurring = 1 || t.last_completed_at = none)).map
    fun t =>
      let r := calculateTaskStatus (taskStatusInputOf t) today
      ⟨t, r.status, r.nextDue⟩

/-- The history ordering `ORDER BY tc.completed_at DESC`: row a precedes row b
when a's completion instant is at least b's. -/
def histDescRel (a b : CompletionRow) : Prop :=
  b.completed_at.epoch ≤ a.completed_at.epoch

instance : DecidableRel histDescRel := fun a b =>
  inferInstanceAs (Decidable (b.completed_at.epoch ≤ a.completed_at.epoch))

instance : IsTotal CompletionRow histDescRel :=
  ⟨fun a b => (le_total b.completed_at.epoch a.completed_at.epoch)⟩

instance : IsTrans CompletionRow histDescRel :=
  ⟨fun _ _ _ h1 h2 => le_trans h2 h1⟩

/-- getHistoryForUser (history.service.ts): the completions joined to a task
row owned by the user, ordered by completed_at descending, LIMIT 100.  The
joined presentation columns (task_name, completed_by_name, notes) are omitted;
the rows themselves are returned. -/
def getHistoryForUser (userId : Nat) (db : Db) : List CompletionRow :=
  (((db.completions.filter fun c => taskOwnedBy userId db.tasks c.task_id).insertionSort
      histDescRel).take 100)

/-- One invocation of the cache-maintaining history operations, as the HTTP
routes issue them: complete a task (with the completion instant that ends up
stored, whether caller-supplied or the current time, and the fresh rowid of
the inserted completion), delete one history entry by id, or clear a user's
history. -/
inductive HistOp where
  | complete (taskId : Nat) (ts : Timestamp) (newId : Nat)
  | deleteEntry (entryId : Nat)
  | clearUser (userId : Nat)
  deriving DecidableEq, Repr

/-- Apply one operation to the database.  For deleteEntry the route first
looks the entry up (getHistoryEntry) and calls deleteHistoryEntry with that
entry's task_id; when no such entry exists the route answers 404 and the
database is untouched. -/
def applyOp (db : Db) : HistOp → Db
  | .complete taskId ts newId => completeTask taskId (some ts) ts newId db
  | .deleteEntry entryId =>
    match db.completions.find? fun c => c.id = entryId with
    | some c => deleteHistoryEntry entryId c.task_id db
    | none => db
  | .clearUser userId => clearHistoryForUser userId db

/-- The completion-cache invariant: every task's cached last_completed_at is
the greatest surviving completion instant for that task (none when no
completion survives). -/
def cacheInv (db : Db) : Prop :=
  ∀ t ∈ db.tasks, t.last_completed_at = latestCompletion t.id db.completions

/-- Primary-key discipline of the SQLite schema: completion ids and task ids
are unique. -/
def keysUnique (db : Db) : Prop :=
  (db.completions.map fun c => c.id).Nodup ∧ (db.tasks.map fun t => t.id).Nodup

/-- A well-formed database: unique keys and a correct completion cache. -/
def dbInv (db : Db) : Prop := keysUnique db ∧ cacheInv db

/-- The condition under which one operation keeps the cache correct: a
completion must carry a fresh rowid and an instant no earlier than every
surviving completion of its task (equal instants must be the same timestamp,
as the stored ISO string is reused); deletes and clears are unconditional. -/
def opSafe (db : Db) : HistOp → Prop
  | .complete taskId ts newId =>
    (∀ c ∈ db.completions, c.id ≠ newId) ∧
    (∀ c ∈ db.completions, c.task_id = taskId →
      c.completed_at.epoch < ts.epoch ∨ c.completed_at = ts)
  | .deleteEntry _ => True
  | .clearUser _ => True

/-- A sequence of operations each safe in the state it runs in. -/
def safeTrace : Db → List HistOp → Prop
  | _, [] => True
  | db, op :: ops => opSafe db op ∧ safeTrace (applyOp db op) ops

instance (db : Db) : Decidable (cacheInv db) :=
  inferInstanceAs (Decidable (∀ t ∈ db.tasks,
    t.last_completed_at = latestCompletion t.id db.completions))

instance (db : Db) : Decidable (keysUnique db) :=
  inferInstanceAs (Decidable (_ ∧ _))

instance (db : Db) : Decidable (dbInv db) :=
  inferInstanceAs (Decidable (_ ∧ _))

instance (db : Db) (op : HistOp) : Decidable (opSafe db op) :=
  match op with
  | .complete taskId ts newId =>
    inferInstanceAs (Decidable ((∀ c ∈ db.completions, c.id ≠ newId) ∧
      (∀ c ∈ db.completions, c.task_id = taskId →
        c.completed_at.epoch < ts.epoch ∨ c.completed_at = ts)))
  | .deleteEntry _ => inferInstanceAs (Decidable True)
  | .clearUser _ => inferInstanceAs (Decidable True)

instance instDecidableSafeTrace :
    (db : Db) → (ops : List HistOp) → Decidable (safeTrace db ops)
  | _, [] => isTrue trivial
  | db, op :: ops =>
    have : Decidable (safeTrace (applyOp db op) ops) :=
      instDecidableSafeTrace (applyOp db op) ops
    inferInstanceAs (Decidable (_ ∧ _))

/-! ## Properties of latestCompletion -/

/-- maxOptTs always yields a value, at least as late as the new row and as the
old accumulator. -/
theorem maxOptTs_some (acc : Option Timestamp) (c : CompletionRow) :
    ∃ m1, maxOptTs acc c = some m1 ∧ c.completed_at.epoch ≤ m1.epoch ∧
      ∀ m0, acc = some m0 → m0.epoch ≤ m1.epoch := by
  cases acc with
  | none => exact ⟨c.completed_at, rfl, le_refl _, by simp⟩
  | some m0 =>
    by_cases h : m0.epoch < c.completed_at.epoch
    · refine ⟨c.completed_at, by simp [maxOptTs, h], le_refl _, ?_⟩
      intro m2 hm2
      injection hm2 with hm2
      rw [← hm2]
      omega
    · refine ⟨m0, by simp [maxOptTs, h], by omega, ?_⟩
      intro m2 hm2
      injection hm2 with hm2
      rw [← hm2]

/-- A fold of maxOptTs bounds every folded row and the starting accumulator. -/
theorem foldl_maxOptTs_le (l : List CompletionRow) :
    ∀ acc m, l.foldl maxOptTs acc = some m →
      (∀ c ∈ l, c.completed_at.epoch ≤ m.epoch) ∧
      (∀ m0, acc = some m0 → m0.epoch ≤ m.epoch) := by
  induction l with
  | nil =>
    intro acc m h
    refine ⟨by simp, fun m0 h0 => ?_⟩
    rw [h0] at h
    injection h with h2
    rw [h2]
  | cons c l ih =>
    intro acc m h
    simp only [List.foldl_cons] at h
    obtain ⟨m1, hm1, hcle, hacc⟩ := maxOptTs_some acc c
    rw [hm1] at h
    obtain ⟨hl, hstep⟩ := ih (some m1) m h
    have hm1le : m1.epoch ≤ m.epoch := hstep m1 rfl
    refine ⟨?_, fun m0 h0 => le_trans (hacc m0 h0) hm1le⟩
    intro c2 hc2
    rcases List.mem_cons.mp hc2 with rfl | hc2
    · exact le_trans hcle hm1le
    · exact hl c2 hc2

/-- A fold of maxOptTs yields the accumulator or the timestamp of some folded
row. -/
theorem foldl_maxOptTs_mem (l : List CompletionRow) :
    ∀ acc m, l.foldl maxOptTs acc = some m →
      acc = some m ∨ ∃ c ∈ l, c.completed_at = m := by
  induction l with
  | nil => exact fun acc m h => Or.inl h
  | cons c l ih =>
    intro acc m h
    simp only [List.foldl_cons] at h
    rcases ih (maxOptTs acc c) m h with h2 | ⟨c2, hc2, he⟩
    · cases acc with
      | none =>
        exact Or.inr ⟨c, List.mem_cons_self c l, Option.some.inj h2⟩
      | some m0 =>
        by_cases hlt : m0.epoch < c.completed_at.epoch
        · simp only [maxOptTs, if_pos hlt] at h2
          exact Or.inr ⟨c, List.mem_cons_self c l, Option.some.inj h2⟩
        · simp only [maxOptTs, if_neg hlt] at h2
          exact Or.inl h2
    · exact Or.inr ⟨c2, List.mem_cons_of_mem c hc2, he⟩

/-- maxOptTs never yields none. -/
theorem maxOptTs_ne_none (acc : Option Timestamp) (c : CompletionRow) :
    maxOptTs acc c ≠ none := by
  cases acc with
  | none => simp [maxOptTs]
  | some m => simp only [maxOptTs]; split <;> simp

/-- A fold of maxOptTs from a present accumulator never yields none. -/
theorem foldl_maxOptTs_ne_none (l : List CompletionRow) :
    ∀ acc, acc ≠ none → l.foldl maxOptTs acc ≠ none := by
  induction l with
  | nil => exact fun acc h => h
  | cons c l ih => exact fun acc _ => ih _ (maxOptTs_ne_none acc c)

/-- latestCompletion is none exactly when no completion of the task
survives. -/
theorem latestCompletion_eq_none_iff (tid : Nat) (comps : List CompletionRow) :
    latestCompletion tid comps = none ↔ ∀ c ∈ comps, ¬ c.task_id = tid := by
  unfold latestCompletion
  constructor
  · intro h c hc htid
    have hcf : c ∈ comps.filter fun c2 => c2.task_id = tid :=
      List.mem_filter.mpr ⟨hc, by simpa⟩
    rcases hx : comps.filter fun c2 => c2.task_id = tid with _ | ⟨c0, rest⟩
    · rw [hx] at hcf
      cases hcf
    · rw [hx] at h
      simp only [List.foldl_cons] at h
      exact foldl_maxOptTs_ne_none rest _ (maxOptTs_ne_none none c0) h
  · intro h
    have hnil : (comps.filter fun c2 => c2.task_id = tid) = [] := by
      rw [List.filter_eq_nil_iff]
      intro c hc
      simpa using h c hc
    rw [hnil]
    rfl

/-- When latestCompletion yields a value it is the timestamp of a surviving
completion of the task and bounds all of them: the maximum. -/
theorem latestCompletion_spec (tid : Nat) (comps : List CompletionRow)
    (m : Timestamp) (h : latestCompletion tid comps = some m) :
    (∃ c ∈ comps, c.task_id = tid ∧ c.completed_at = m) ∧
    (∀ c ∈ comps, c.task_id = tid → c.completed_at.epoch ≤ m.epoch) := by
  unfold latestCompletion at h
  constructor
  · rcases foldl_maxOptTs_mem _ none m h with h2 | ⟨c, hc, he⟩
    · cases h2
    · have hm := List.mem_filter.mp hc
      exact ⟨c, hm.1, by simpa using hm.2, he⟩
  · intro c hc htid
    have hcf : c ∈ comps.filter fun c => c.task_id = tid :=
      List.mem_filter.mpr ⟨hc, by simpa⟩
    exact (foldl_maxOptTs_le _ none m h).1 c hcf

/-! ## Theorems about the status engine -/

/-- Unfolding of the recurring-with-completion branch of
calculateTaskStatus. -/
theorem calculateTaskStatus_recurring_some (task : TaskStatusInput)
    (today lc : Timestamp)
    (hrec : task.is_recurring ≠ 0) (hlc : task.last_completed_at = some lc) :
    calculateTaskStatus task today =
      (if today.epoch < (normalizeToDay (addDays lc (task.interval_days.getD 0))).epoch then
        ⟨.done, addDays lc (task.interval_days.getD 0)⟩
      else if (normalizeToDay (addDays lc (task.interval_days.getD 0))).epoch = today.epoch then
        ⟨.pending, addDays lc (task.interval_days.getD 0)⟩
      else ⟨.overdue, addDays lc (task.interval_days.getD 0)⟩ : TaskStatusResult) := by
  simp only [calculateTaskStatus, if_neg hrec, hlc]

/-- Unfolding of the non-recurring-with-due-date branch of
calculateTaskStatus. -/
theorem calculateTaskStatus_nonrecurring_some (task : TaskStatusInput)
    (today d : Timestamp)
    (hrec : task.is_recurring = 0) (hdd : task.due_date = some d) :
    calculateTaskStatus task today =
      (if today.epoch ≤ (normalizeToDay d).epoch then ⟨.pending, normalizeToDay d⟩
       else ⟨.overdue, normalizeToDay d⟩ : TaskStatusResult) := by
  simp only [calculateTaskStatus, if_pos hrec, hdd]

/-- Claim C7: a recurring task that was never completed is overdue with
nextDue = today, whatever its interval_days and due_date hold. -/
theorem recurring_uncompleted_overdue (task : TaskStatusInput) (today : Timestamp)
    (hrec : task.is_recurring ≠ 0) (hlc : task.last_completed_at = none) :
    calculateTaskStatus task today = ⟨.overdue, today⟩ := by
  simp [calculateTaskStatus, hrec, hlc]

/-- Witness for recurring_uncompleted_overdue at a concrete never-completed
recurring task. -/
theorem recurring_uncompleted_overdue_witness :
    calculateTaskStatus ⟨1, none, some 5, some ⟨3, 0⟩⟩ ⟨0, 0⟩ = ⟨.overdue, ⟨0, 0⟩⟩ :=
  recurring_uncompleted_overdue ⟨1, none, some 5, some ⟨3, 0⟩⟩ ⟨0, 0⟩ (by decide) rfl

/-- Claim C1: for a recurring task with a last completion and an interval, the
status is the three-way comparison of the normalized next-due day (completion
day plus interval_days) against today; at equality — the boundary day — it is
pending, never done or overdue. -/
theorem recurring_completed_status_trichotomy (task : TaskStatusInput)
    (today lc : Timestamp) (n : Int)
    (hrec : task.is_recurring ≠ 0) (hlc : task.last_completed_at = some lc)
    (hn : task.interval_days = some n) (hms : today.ms = 0) :
    ((calculateTaskStatus task today).status = .done ↔ today.day < lc.day + n) ∧
    ((calculateTaskStatus task today).status = .pending ↔ lc.day + n = today.day) ∧
    ((calculateTaskStatus task today).status = .overdue ↔ lc.day + n < today.day) := by
  rw [calculateTaskStatus_recurring_some task today lc hrec hlc, hn]
  simp only [Option.getD_some, addDays, normalizeToDay, Timestamp.epoch, msPerDay, hms]
  split_ifs with h1 h2 <;> refine ⟨?_, ?_, ?_⟩ <;> simp <;> omega

/-- Witness for recurring_completed_status_trichotomy: interval 7, completed
on day 8, today day 15 — the boundary day — status pending. -/
theorem recurring_completed_status_trichotomy_witness :
    (calculateTaskStatus ⟨1, some ⟨8, 0⟩, some 7, none⟩ ⟨15, 0⟩).status = .pending :=
  ((recurring_completed_status_trichotomy ⟨1, some ⟨8, 0⟩, some 7, none⟩
    ⟨15, 0⟩ ⟨8, 0⟩ 7 (by decide) rfl rfl rfl).2.1).mpr (by decide)

/-- Claim C9: a recurring task with a completion but a null interval_days is
handled totally, the missing interval read as 0: nextDue is the completion
instant itself, the status is pending on the completion day and overdue on
every later day, and it is never done from that day on. -/
theorem recurring_null_interval_total (task : TaskStatusInput)
    (today lc : Timestamp)
    (hrec : task.is_recurring ≠ 0) (hlc : task.last_completed_at = some lc)
    (hn : task.interval_days = none) (hms : today.ms = 0) :
    (calculateTaskStatus task today).nextDue = lc ∧
    (today.day = lc.day → (calculateTaskStatus task today).status = .pending) ∧
    (lc.day < today.day → (calculateTaskStatus task today).status = .overdue) ∧
    (lc.day ≤ today.day → (calculateTaskStatus task today).status ≠ .done) := by
  rw [calculateTaskStatus_recurring_some task today lc hrec hlc, hn]
  simp only [Option.getD_none, addDays, normalizeToDay, Timestamp.epoch, msPerDay,
    hms, add_zero]
  split_ifs with h1 h2
  · exact ⟨rfl, fun h => by omega, fun h => by omega, fun h => by omega⟩
  · exact ⟨rfl, fun h => rfl, fun h => by omega, fun h => by simp⟩
  · exact ⟨rfl, fun h => by omega, fun h => rfl, fun h => by simp⟩

/-- Witness for recurring_null_interval_total: completed today (day 4) with a
null interval — pending and not done. -/
theorem recurring_null_interval_total_witness :
    (calculateTaskStatus ⟨1, some ⟨4, 100⟩, none, none⟩ ⟨4, 0⟩).status = .pending :=
  (recurring_null_interval_total ⟨1, some ⟨4, 100⟩, none, none⟩
    ⟨4, 0⟩ ⟨4, 100⟩ (by decide) rfl rfl rfl).2.1 rfl

/-- Claim C6: a non-recurring task with no due date is pending with
nextDue = today; with a due date it is pending (and nextDue the normalized
date) when that day is not before today, overdue when it is; and the
non-recurring branch never yields done. -/
theorem nonrecurring_status (task : TaskStatusInput) (today : Timestamp)
    (hrec : task.is_recurring = 0) (hms : today.ms = 0) :
    (task.due_date = none → calculateTaskStatus task today = ⟨.pending, today⟩) ∧
    (∀ d, task.due_date = some d →
      (today.day ≤ d.day →
        calculateTaskStatus task today = ⟨.pending, ⟨d.day, 0⟩⟩) ∧
      (d.day < today.day →
        (calculateTaskStatus task today).status = .overdue ∧
        (calculateTaskStatus task today).nextDue = ⟨d.day, 0⟩)) ∧
    (calculateTaskStatus task today).status ≠ .done := by
  refine ⟨fun hdd => by simp [calculateTaskStatus, hrec, hdd], fun d hdd => ?_, ?_⟩
  · rw [calculateTaskStatus_nonrecurring_some task today d hrec hdd]
    simp only [normalizeToDay, Timestamp.epoch, msPerDay, hms]
    refine ⟨fun h => ?_, fun h => ?_⟩ <;>
      split_ifs with hc <;> first | rfl | exact ⟨rfl, rfl⟩ | omega
  · cases hdd : task.due_date with
    | none => simp [calculateTaskStatus, hrec, hdd]
    | some d =>
      rw [calculateTaskStatus_nonrecurring_some task today d hrec hdd]
      split_ifs <;> simp

/-- Witness for nonrecurring_status: due yesterday (day 14, today day 15) —
overdue. -/
theorem nonrecurring_status_witness :
    (calculateTaskStatus ⟨0, none, none, some ⟨14, 0⟩⟩ ⟨15, 0⟩).status = .overdue :=
  (((nonrecurring_status ⟨0, none, none, some ⟨14, 0⟩⟩ ⟨15, 0⟩ rfl rfl).2.1
    ⟨14, 0⟩ rfl).2 (by decide)).1

/-- Claim C3 counterexample: for a completion logged at 01:00 of day 8 with a
7-day interval, the returned nextDue keeps the 01:00 time of day, so it is not
the normalized (midnight) completion day plus 7 days. -/
theorem nextDue_keeps_time_of_day :
    (calculateTaskStatus ⟨1, some ⟨8, 3600000⟩, some 7, none⟩ ⟨15, 0⟩).nextDue ≠
      addDays (normalizeToDay ⟨8, 3600000⟩) 7 := by
  decide

/-- Claim C3 (amended): for a recurring task with a completion and an
interval, nextDue is the raw last-completion instant shifted by interval_days
calendar days (time of day preserved); its normalization to midnight equals
the normalized last completion plus interval_days. -/
theorem recurring_nextDue_value (task : TaskStatusInput) (today lc : Timestamp)
    (n : Int)
    (hrec : task.is_recurring ≠ 0) (hlc : task.last_completed_at = some lc)
    (hn : task.interval_days = some n) :
    (calculateTaskStatus task today).nextDue = addDays lc n ∧
    normalizeToDay ((calculateTaskStatus task today).nextDue) =
      addDays (normalizeToDay lc) n := by
  rw [calculateTaskStatus_recurring_some task today lc hrec hlc, hn]
  simp only [Option.getD_some]
  split_ifs <;> exact ⟨rfl, rfl⟩

/-- Witness for recurring_nextDue_value at the 01:00 completion of day 8. -/
theorem recurring_nextDue_value_witness :
    (calculateTaskStatus ⟨1, some ⟨8, 3600000⟩, some 7, none⟩ ⟨15, 0⟩).nextDue =
      addDays ⟨8, 3600000⟩ 7 :=
  (recurring_nextDue_value ⟨1, some ⟨8, 3600000⟩, some 7, none⟩ ⟨15, 0⟩
    ⟨8, 3600000⟩ 7 (by decide) rfl rfl).1

/-- Claim C4 counterexample: a recurring submission with the negative interval
-5 is accepted as valid with no error, because the code only rejects a falsy
(absent or zero) interval_days. -/
theorem negative_interval_accepted :
    validateTaskData ⟨some "Task", some true, some (-5)⟩ = ⟨true, none⟩ := by
  decide

/-- Claim C4 (amended): validateTaskData accepts exactly the submissions with
a present non-empty name whose is_recurring, when true, comes with a present
nonzero interval_days (negative intervals are accepted); every rejection
carries one of the two human-readable reasons. -/
theorem validateTaskData_characterization (d : TaskFormData) :
    ((validateTaskData d).valid = true ↔
      ((∃ s, d.name = some s ∧ s ≠ "") ∧
        (d.is_recurring = some true → ∃ k, d.interval_days = some k ∧ k ≠ 0))) ∧
    ((validateTaskData d).valid = true → (validateTaskData d).error = none) ∧
    ((validateTaskData d).valid = false →
      (validateTaskData d).error = some "Name is required" ∨
      (validateTaskData d).error = some "Interval is required for recurring tasks") := by
  obtain ⟨name, rec, intd⟩ := d
  rcases name with _ | s <;> rcases rec with _ | b <;> rcases intd with _ | k <;>
    first
    | (cases b <;>
        simp [validateTaskData, nameTruthy, recurringTruthy, intervalTruthy,
          String.isEmpty_iff] <;>
        split_ifs <;> simp_all)
    | (simp [validateTaskData, nameTruthy, recurringTruthy, intervalTruthy,
        String.isEmpty_iff] <;>
       split_ifs <;> simp_all)

/-- Claim C5: getTasksForUser returns exactly the owner's stored tasks that
are recurring or have a null completion cache, each carrying the status and
next_due computed by calculateTaskStatus; a non-recurring task with a non-null
cache never appears. -/
theorem getTasksForUser_characterization (userId : Nat) (today : Timestamp)
    (db : Db) :
    (∀ x ∈ getTasksForUser userId today db,
      x.row ∈ db.tasks ∧ x.row.user_id = userId ∧
      (x.row.is_recurring = 1 ∨ x.row.last_completed_at = none) ∧
      x.status = (calculateTaskStatus (taskStatusInputOf x.row) today).status ∧
      x.next_due = (calculateTaskStatus (taskStatusInputOf x.row) today).nextDue) ∧
    (∀ t ∈ db.tasks, t.user_id = userId →
      (t.is_recurring = 1 ∨ t.last_completed_at = none) →
      ∃ x ∈ getTasksForUser userId today db, x.row = t) ∧
    (∀ t : TaskRow, t.is_recurring ≠ 1 → t.last_completed_at ≠ none →
      ∀ x ∈ getTasksForUser userId today db, x.row ≠ t) := by
  have hmain : ∀ x ∈ getTasksForUser userId today db,
      x.row ∈ db.tasks ∧ x.row.user_id = userId ∧
      (x.row.is_recurring = 1 ∨ x.row.last_completed_at = none) ∧
      x.status = (calculateTaskStatus (taskStatusInputOf x.row) today).status ∧
      x.next_due = (calculateTaskStatus (taskStatusInputOf x.row) today).nextDue := by
    intro x hx
    simp only [getTasksForUser, List.mem_map, List.mem_filter] at hx
    obtain ⟨t, ⟨ht, hcond⟩, rfl⟩ := hx
    simp only [Bool.and_eq_true, Bool.or_eq_true, decide_eq_true_eq] at hcond
    exact ⟨ht, hcond.1, hcond.2, rfl, rfl⟩
  refine ⟨hmain, ?_, ?_⟩
  · intro t ht hu hcond
    refine ⟨⟨t, (calculateTaskStatus (taskStatusInputOf t) today).status,
      (calculateTaskStatus (taskStatusInputOf t) today).nextDue⟩, ?_, rfl⟩
    simp only [getTasksForUser, List.mem_map, List.mem_filter]
    refine ⟨t, ⟨ht, ?_⟩, rfl⟩
    simp only [Bool.and_eq_true, Bool.or_eq_true, decide_eq_true_eq]
    exact ⟨hu, hcond⟩
  · intro t h1 h2 x hx heq
    obtain ⟨-, -, hcond, -, -⟩ := hmain x hx
    rw [heq] at hcond
    rcases hcond with h | h
    exacts [h1 h, h2 h]

/-- Witness for getTasksForUser_characterization: one recurring and one
completed one-time task; only the recurring one is listed. -/
theorem getTasksForUser_characterization_witness :
    ∃ x ∈ getTasksForUser 1 ⟨15, 0⟩
      ⟨[⟨1, 1, "Dishes", 1, some 7, none, none⟩,
        ⟨2, 1, "Fix door", 0, none, none, some ⟨10, 0⟩⟩], []⟩,
      x.row = ⟨1, 1, "Dishes", 1, some 7, none, none⟩ :=
  (getTasksForUser_characterization 1 ⟨15, 0⟩
    ⟨[⟨1, 1, "Dishes", 1, some 7, none, none⟩,
      ⟨2, 1, "Fix door", 0, none, none, some ⟨10, 0⟩⟩], []⟩).2.1
    ⟨1, 1, "Dishes", 1, some 7, none, none⟩ (by decide) rfl (Or.inl rfl)

/-- Claim C10: getHistoryForUser returns only completions of tasks owned by
the user, in descending completed_at order, and never more than 100 rows. -/
theorem getHistoryForUser_characterization (userId : Nat) (db : Db) :
    (∀ c ∈ getHistoryForUser userId db,
      taskOwnedBy userId db.tasks c.task_id = true) ∧
    (getHistoryForUser userId db).Sorted histDescRel ∧
    (getHistoryForUser userId db).length ≤ 100 := by
  refine ⟨?_, ?_, ?_⟩
  · intro c hc
    have h1 : c ∈ (db.completions.filter fun c =>
        taskOwnedBy userId db.tasks c.task_id).insertionSort histDescRel :=
      List.mem_of_mem_take hc
    rw [List.mem_insertionSort] at h1
    simpa using (List.mem_filter.mp h1).2
  · exact List.Pairwise.take (List.sorted_insertionSort histDescRel _)
  · rw [getHistoryForUser, List.length_take]
    exact min_le_left _ _

/-- Claim C8: after completeTask with the default current-time completion,
recomputing the status of the completed recurring task against the same
normalized today yields done when interval_days is positive and pending when
it is zero. -/
theorem complete_then_status_roundtrip (db : Db) (taskId newId : Nat)
    (now today : Timestamp) (n : Int) (t : TaskRow)
    (hmem : t ∈ (completeTask taskId none now newId db).tasks)
    (hid : t.id = taskId)
    (hrec : t.is_recurring ≠ 0) (hint : t.interval_days = some n)
    (hday : now.day = today.day) (hms : today.ms = 0) :
    (0 < n → (calculateTaskStatus (taskStatusInputOf t) today).status = .done) ∧
    (n = 0 → (calculateTaskStatus (taskStatusInputOf t) today).status = .pending) := by
  have hlc : t.last_completed_at = some now := by
    simp only [completeTask, setLastCompleted, List.mem_map, Option.getD_some] at hmem
    obtain ⟨t0, ht0, heq⟩ := hmem
    by_cases h : t0.id = taskId
    · rw [if_pos h] at heq
      rw [← heq]
      rfl
    · rw [if_neg h] at heq
      rw [← heq] at hid
      exact absurd hid h
  rw [calculateTaskStatus_recurring_some (taskStatusInputOf t) today now
    (by simpa [taskStatusInputOf] using hrec) (by simpa [taskStatusInputOf] using hlc)]
  simp only [taskStatusInputOf, hint, Option.getD_some, addDays, normalizeToDay,
    Timestamp.epoch, msPerDay, hms, hday, add_zero]
  split_ifs with h1 h2
  · exact ⟨fun _ => rfl, fun h0 => by omega⟩
  · exact ⟨fun hn => by omega, fun _ => rfl⟩
  · exact ⟨fun hn => by omega, fun h0 => by omega⟩

/-- Witness for complete_then_status_roundtrip: a 7-day recurring task
completed now (day 100) is done against today = day 100. -/
theorem complete_then_status_roundtrip_witness :
    (calculateTaskStatus
      (taskStatusInputOf ⟨1, 1, "Dishes", 1, some 7, none, some ⟨100, 5000⟩⟩)
      ⟨100, 0⟩).status = .done :=
  (complete_then_status_roundtrip ⟨[⟨1, 1, "Dishes", 1, some 7, none, none⟩], []⟩
    1 1 ⟨100, 5000⟩ ⟨100, 0⟩ 7 ⟨1, 1, "Dishes", 1, some 7, none, some ⟨100, 5000⟩⟩
    (by decide) rfl (by decide) rfl rfl rfl).1 (by decide)

/-! ## Cache maintenance -/

/-- Appending a completion of the task that is no earlier than every stored
completion of the task makes it the latest. -/
theorem latestCompletion_append_last (tid : Nat) (comps : List CompletionRow)
    (c : CompletionRow) (hc : c.task_id = tid)
    (hmax : ∀ c2 ∈ comps, c2.task_id = tid →
      c2.completed_at.epoch < c.completed_at.epoch ∨
        c2.completed_at = c.completed_at) :
    latestCompletion tid (comps ++ [c]) = some c.completed_at := by
  unfold latestCompletion
  rw [List.filter_append]
  have hone : List.filter (fun c2 => c2.task_id = tid) [c] = [c] := by simp [hc]
  rw [hone, List.foldl_append]
  simp only [List.foldl_cons, List.foldl_nil]
  cases hacc : (comps.filter fun c2 => c2.task_id = tid).foldl maxOptTs none with
  | none => rfl
  | some m =>
    have hspec := latestCompletion_spec tid comps m hacc
    obtain ⟨⟨c2, hc2, htid2, he⟩, -⟩ := hspec
    rcases hmax c2 hc2 htid2 with hlt | heq
    · rw [he] at hlt
      simp [maxOptTs, hlt]
    · rw [heq] at he
      simp [maxOptTs, ← he]

/-- Appending a completion of a different task leaves the latest unchanged. -/
theorem latestCompletion_append_other (tid : Nat) (comps : List CompletionRow)
    (c : CompletionRow) (hc : c.task_id ≠ tid) :
    latestCompletion tid (comps ++ [c]) = latestCompletion tid comps := by
  unfold latestCompletion
  rw [List.filter_append]
  have hnone : List.filter (fun c2 => c2.task_id = tid) [c] = [] := by simp [hc]
  rw [hnone, List.append_nil]

/-- Removing only completions of other tasks leaves the latest unchanged. -/
theorem latestCompletion_filter (tid : Nat) (comps : List CompletionRow)
    (p : CompletionRow → Bool)
    (h : ∀ c ∈ comps, c.task_id = tid → p c = true) :
    latestCompletion tid (comps.filter p) = latestCompletion tid comps := by
  unfold latestCompletion
  rw [List.filter_filter]
  congr 1
  apply List.filter_congr
  intro c hc
  by_cases htid : c.task_id = tid
  · simp [htid, h c hc htid]
  · simp [htid]

/-- setLastCompleted changes no task id. -/
theorem setLastCompleted_map_id (taskId : Nat) (v : Option Timestamp)
    (tasks : List TaskRow) :
    ((setLastCompleted taskId v tasks).map fun t => t.id) =
      tasks.map fun t => t.id := by
  unfold setLastCompleted
  rw [List.map_map]
  apply List.map_congr_left
  intro t _
  by_cases h : t.id = taskId <;> simp [h]

/-- The cache reset of clearHistoryForUser changes no task id. -/
theorem clear_tasks_map_id (userId : Nat) (tasks : List TaskRow) :
    (((tasks.map fun t =>
        if t.user_id = userId then { t with last_completed_at := none } else t).map
      fun t => t.id)) = tasks.map fun t => t.id := by
  rw [List.map_map]
  apply List.map_congr_left
  intro t _
  by_cases h : t.user_id = userId <;> simp [h]

/-- completeTask keeps the database well formed when the completion rowid is
fresh and the completion instant is no earlier than every stored completion of
the task. -/
theorem dbInv_completeTask (db : Db) (taskId newId : Nat) (ts : Timestamp)
    (hinv : dbInv db)
    (hfresh : ∀ c ∈ db.completions, c.id ≠ newId)
    (hts : ∀ c ∈ db.completions, c.task_id = taskId →
      c.completed_at.epoch < ts.epoch ∨ c.completed_at = ts) :
    dbInv (completeTask taskId (some ts) ts newId db) := by
  obtain ⟨⟨hcNodup, htNodup⟩, hcache⟩ := hinv
  refine ⟨⟨?_, ?_⟩, ?_⟩
  · simp only [completeTask, Option.getD_some, List.map_append, List.map_cons,
      List.map_nil]
    rw [List.nodup_append]
    refine ⟨hcNodup, by simp, ?_⟩
    intro a ha hb
    simp only [List.mem_map] at ha
    obtain ⟨c, hc, rfl⟩ := ha
    simp only [List.mem_singleton] at hb
    exact hfresh c hc hb
  · simp only [completeTask, Option.getD_some]
    rw [setLastCompleted_map_id]
    exact htNodup
  · intro t ht
    simp only [completeTask, Option.getD_some, setLastCompleted, List.mem_map] at ht ⊢
    obtain ⟨t0, ht0, heq⟩ := ht
    by_cases h : t0.id = taskId
    · rw [if_pos h] at heq
      subst heq
      have hid2 : ({ t0 with last_completed_at := some ts } : TaskRow).id = taskId := h
      rw [hid2]
      rw [latestCompletion_append_last taskId db.completions ⟨newId, taskId, ts⟩ rfl hts]
    · rw [if_neg h] at heq
      subst heq
      rw [latestCompletion_append_other t0.id db.completions ⟨newId, taskId, ts⟩
        fun hh => h hh.symm]
      exact hcache t0 ht0

/-- deleteHistoryEntry, invoked as the route does with the deleted entry's own
task id, keeps the database well formed. -/
theorem dbInv_deleteHistoryEntry (db : Db) (entryId : Nat) (c0 : CompletionRow)
    (hinv : dbInv db) (hc0 : c0 ∈ db.completions) (hid0 : c0.id = entryId) :
    dbInv (deleteHistoryEntry entryId c0.task_id db) := by
  obtain ⟨⟨hcNodup, htNodup⟩, hcache⟩ := hinv
  refine ⟨⟨?_, ?_⟩, ?_⟩
  · simp only [deleteHistoryEntry]
    exact List.Nodup.sublist (List.Sublist.map _ (List.filter_sublist _)) hcNodup
  · simp only [deleteHistoryEntry]
    rw [setLastCompleted_map_id]
    exact htNodup
  · intro t ht
    simp only [deleteHistoryEntry, setLastCompleted, List.mem_map] at ht ⊢
    obtain ⟨t0, ht0, heq⟩ := ht
    by_cases h : t0.id = c0.task_id
    · rw [if_pos h] at heq
      subst heq
      have hid2 :
          ({ t0 with last_completed_at :=
            latestCompletion c0.task_id (db.completions.filter fun c => c.id ≠ entryId) } :
            TaskRow).id = c0.task_id := h
      rw [hid2]
    · rw [if_neg h] at heq
      subst heq
      rw [latestCompletion_filter t0.id db.completions _ ?hall]
      · exact hcache t0 ht0
      case hall =>
        intro c hc htid
        simp only [ne_eq, decide_eq_true_eq]
        intro hce
        have hcc : c = c0 :=
          List.inj_on_of_nodup_map hcNodup hc hc0 (by rw [hce, hid0])
        rw [hcc] at htid
        exact h htid.symm

/-- clearHistoryForUser keeps the database well formed. -/
theorem dbInv_clearHistoryForUser (db : Db) (userId : Nat) (hinv : dbInv db) :
    dbInv (clearHistoryForUser userId db) := by
  obtain ⟨⟨hcNodup, htNodup⟩, hcache⟩ := hinv
  refine ⟨⟨?_, ?_⟩, ?_⟩
  · simp only [clearHistoryForUser]
    exact List.Nodup.sublist (List.Sublist.map _ (List.filter_sublist _)) hcNodup
  · simp only [clearHistoryForUser]
    rw [clear_tasks_map_id]
    exact htNodup
  · intro t ht
    simp only [clearHistoryForUser, List.mem_map] at ht ⊢
    obtain ⟨t0, ht0, heq⟩ := ht
    by_cases h : t0.user_id = userId
    · rw [if_pos h] at heq
      subst heq
      rw [eq_comm]
      rw [latestCompletion_eq_none_iff]
      intro c hc htid
      have hmem := List.mem_filter.mp hc
      have howned : taskOwnedBy userId db.tasks c.task_id = true := by
        unfold taskOwnedBy
        rw [List.any_eq_true]
        exact ⟨t0, ht0, by simp [htid, h]⟩
      rw [howned] at hmem
      simp at hmem
    · rw [if_neg h] at heq
      subst heq
      rw [latestCompletion_filter t0.id db.completions _ ?hall2]
      · exact hcache t0 ht0
      case hall2 =>
        intro c hc htid
        simp only [Bool.not_eq_true']
        unfold taskOwnedBy
        rw [List.any_eq_false]
        intro t1 ht1
        simp only [Bool.and_eq_true, decide_eq_true_eq, not_and]
        intro hid1 huser1
        rw [htid] at hid1
        have ht10 : t1 = t0 :=
          List.inj_on_of_nodup_map htNodup ht1 ht0 hid1
        rw [ht10] at huser1
        exact h huser1

/-- Every route-shaped operation whose completion instants are monotone and
whose rowids are fresh keeps the database well formed. -/
theorem dbInv_applyOp (db : Db) (op : HistOp) (hinv : dbInv db)
    (hsafe : opSafe db op) : dbInv (applyOp db op) := by
  cases op with
  | complete taskId ts newId =>
    exact dbInv_completeTask db taskId newId ts hinv hsafe.1 hsafe.2
  | deleteEntry entryId =>
    simp only [applyOp]
    cases hfind : db.completions.find? fun c => c.id = entryId with
    | none => exact hinv
    | some c0 =>
      have hc0 : c0 ∈ db.completions := List.mem_of_find?_eq_some hfind
      have hid0 : c0.id = entryId := by
        have hp := List.find?_some hfind
        simpa using hp
      exact dbInv_deleteHistoryEntry db entryId c0 hinv hc0 hid0
  | clearUser userId => exact dbInv_clearHistoryForUser db userId hinv

/-- dbInv is preserved along every safe trace. -/
theorem dbInv_foldl (ops : List HistOp) :
    ∀ db, dbInv db → safeTrace db ops → dbInv (ops.foldl applyOp db) := by
  induction ops with
  | nil => exact fun _ h _ => h
  | cons op ops ih =>
    exact fun db h hs => ih _ (dbInv_applyOp db op h hs.1) hs.2

/-- Claim C2 counterexample: completing task 1 at instant day 100 and then
again with the caller-supplied earlier instant day 50 (the route forwards the
request body's completed_at) leaves the cache at day 50 while the latest
surviving completion is day 100 — completeTask writes the new value
unconditionally. -/
theorem backdated_completion_breaks_cache :
    ∃ t ∈ (applyOp (applyOp ⟨[⟨1, 1, "Laundry", 1, some 7, none, none⟩], []⟩
        (.complete 1 ⟨100, 0⟩ 1)) (.complete 1 ⟨50, 0⟩ 2)).tasks,
      t.last_completed_at ≠
        latestCompletion t.id
          (applyOp (applyOp ⟨[⟨1, 1, "Laundry", 1, some 7, none, none⟩], []⟩
            (.complete 1 ⟨100, 0⟩ 1)) (.complete 1 ⟨50, 0⟩ 2)).completions := by
  decide

/-- Claim C2 (amended): starting from a well-formed database (unique ids,
correct cache), after any sequence of completeTask / deleteHistoryEntry /
clearHistoryForUser invocations as the routes issue them, in which every
completion carries a fresh rowid and an instant no earlier than the surviving
completions of its task, every task's cached last_completed_at equals the
maximum completed_at among that task's surviving completion records, and is
none exactly when none survive.  A backdated completeTask can break the
invariant, since it caches the new instant unconditionally. -/
theorem cache_equals_latest_surviving (db : Db) (ops : List HistOp)
    (hinv : dbInv db) (hsafe : safeTrace db ops) :
    ∀ t ∈ (ops.foldl applyOp db).tasks,
      t.last_completed_at =
        latestCompletion t.id (ops.foldl applyOp db).completions ∧
      (∀ m, latestCompletion t.id (ops.foldl applyOp db).completions = some m →
        (∃ c ∈ (ops.foldl applyOp db).completions,
          c.task_id = t.id ∧ c.completed_at = m) ∧
        ∀ c ∈ (ops.foldl applyOp db).completions, c.task_id = t.id →
          c.completed_at.epoch ≤ m.epoch) ∧
      (latestCompletion t.id (ops.foldl applyOp db).completions = none ↔
        ∀ c ∈ (ops.foldl applyOp db).completions, ¬ c.task_id = t.id) := by
  intro t ht
  exact ⟨(dbInv_foldl ops db hinv hsafe).2 t ht,
    fun m hm => latestCompletion_spec t.id _ m hm,
    latestCompletion_eq_none_iff t.id _⟩

/-- Witness for cache_equals_latest_surviving: complete task 1 at day 100 and
day 200, then delete the day-200 entry; the surviving day-100 completion is
cached. -/
theorem cache_equals_latest_surviving_witness :
    (⟨1, 1, "Laundry", 1, some 7, none, some ⟨100, 0⟩⟩ : TaskRow).last_completed_at =
      latestCompletion
        (⟨1, 1, "Laundry", 1, some 7, none, some ⟨100, 0⟩⟩ : TaskRow).id
        (([HistOp.complete 1 ⟨100, 0⟩ 1, HistOp.complete 1 ⟨200, 0⟩ 2,
            HistOp.deleteEntry 2] : List HistOp).foldl applyOp
          ⟨[⟨1, 1, "Laundry", 1, some 7, none, none⟩,
            ⟨2, 1, "Trash", 1, some 2, none, none⟩], []⟩).completions :=
  (cache_equals_latest_surviving
    ⟨[⟨1, 1, "Laundry", 1, some 7, none, none⟩,
      ⟨2, 1, "Trash", 1, some 2, none, none⟩], []⟩
    [HistOp.complete 1 ⟨100, 0⟩ 1, HistOp.complete 1 ⟨200, 0⟩ 2,
      HistOp.deleteEntry 2]
    (by decide) (by decide)
    ⟨1, 1, "Laundry", 1, some 7, none, some ⟨100, 0⟩⟩ (by decide)).1

end HomeTodo
